import Mathlib

/-!
Verification of the os5 kernel core (stride scheduler, SV39 page table,
process syscalls) against its natural-language specification.

Shallow embedding conventions:
* machine integers (`u64`, `usize`) are `Nat`, with an explicit `% 2 ^ 64`
  exactly where the Rust arithmetic can wrap;
* fallible / panicking code returns `Option` (a `none` models a panic or a
  propagated `None`);
* physical memory backing the page tables is a function
  `ppn → index → pte-bits`, and the frame allocator is a counter handing out
  fresh zeroed frames (the source assumes it never OOMs).
-/

namespace OS5

/-- Modelled from the spec: the constant `BIG_STRIDE` lives in `config.rs`,
which is not among the provided sources; the configuration section of the
spec gives it as e.g. `2 ^ 20`.  No result below depends on the value. -/
def BIG_STRIDE : Nat := 2 ^ 20

/-- Embedding of `u64::abs_diff`. -/
def absDiff (a b : Nat) : Nat := if a ≤ b then b - a else a - b

/-- Embedding of `impl PartialOrd for Pass` (`task/manager.rs`): with
`overflow = abs_diff(a, b) > BIG_STRIDE / 2` and `order = a ≤ b`, it returns
`Some(Less)` when `order ^ overflow` holds and `Some(Greater)` otherwise. -/
def passCmp (a b : Nat) : Option Ordering :=
  if Bool.xor (decide (a ≤ b)) (decide (absDiff a b > BIG_STRIDE / 2))
  then some Ordering.lt else some Ordering.gt

/-- Rust derives `<` on a `PartialOrd` type as
`partial_cmp(a, b) == Some(Less)`. -/
def passLt (a b : Nat) : Bool := passCmp a b == some Ordering.lt

/-- Embedding of `impl PartialEq for Pass`: the source ignores both operands
and returns `false`. -/
def passEq (_a _b : Nat) : Bool := false

/-- The fields of `TaskControlBlock` that `task/manager.rs` uses: the pid,
the stride pass value `task_stride : Pass(u64)` and `task_priority`. -/
structure TaskControlBlock where
  pid : Nat
  task_stride : Nat
  task_priority : Nat
deriving DecidableEq

instance : Inhabited TaskControlBlock := ⟨⟨0, 0, 0⟩⟩

/-- Embedding of `Vec::swap_remove(i)`: overwrite slot `i` with the last
element, then pop the last element. -/
def swapRemove (q : List TaskControlBlock) (i : Nat) : List TaskControlBlock :=
  (q.set i q.getLast!).dropLast

/-- Loop body of `TaskManager::fetch`: keep `(min_i, min_stride)`, replacing
it when `stride = q[i].task_stride` satisfies `stride < min_stride` under the
`Pass` comparison. -/
def fetchStep (q : List TaskControlBlock) (acc : Nat × Nat) (i : Nat) : Nat × Nat :=
  if passLt (q.getD i default).task_stride acc.2
  then (i, (q.getD i default).task_stride) else acc

/-- Embedding of `TaskManager::fetch` (`task/manager.rs`): on an empty ready
queue return `None`; otherwise scan indices `0..len` with `fetchStep`
starting from `(0, q[0].task_stride)` and `swap_remove` the chosen index. -/
def TaskManager.fetch (q : List TaskControlBlock) :
    Option (TaskControlBlock × List TaskControlBlock) :=
  if q.isEmpty then none
  else
    let mi := ((List.range q.length).foldl (fetchStep q) (0, (q.getD 0 default).task_stride)).1
    some (q.getD mi default, swapRemove q mi)

/-- Embedding of `Pass::step_by_prio`: the stride is `BIG_STRIDE / priority`
with a quotient of `0` replaced by `1`; the addition is `u64` arithmetic.
(The Rust division panics for `priority = 0`; every theorem below assumes
`priority ≥ 2`, where the two sides agree.) -/
def Pass.step_by_prio (pass priority : Nat) : Nat :=
  let stride := match BIG_STRIDE / priority with
    | 0 => 1
    | o => o
  (pass + stride) % 2 ^ 64

/-- Embedding of `fetch_task` (`task/manager.rs`): pop the scheduler's choice
from the ready queue and advance that task's (and only that task's) pass. -/
def fetch_task (q : List TaskControlBlock) :
    Option (TaskControlBlock × List TaskControlBlock) :=
  match TaskManager.fetch q with
  | none => none
  | some (t, rest) =>
      some ({ t with task_stride := Pass.step_by_prio t.task_stride t.task_priority }, rest)

/-- Embedding of `set_priority` (`task/manager.rs`): reject `priority < 2`
with `-1`, otherwise store `priority as usize` and return `0`.  The returned
pair is (return value, task after the call). -/
def set_priority (t : TaskControlBlock) (priority : Int) : Int × TaskControlBlock :=
  if priority < 2 then (-1, t)
  else (0, { t with task_priority := priority.toNat })

/-- Embedding of `sys_set_priority` (`syscall/process.rs`): call
`set_priority` on the current task; if it returned `0` the syscall returns
`prio`, otherwise `-1`. -/
def sys_set_priority (t : TaskControlBlock) (prio : Int) : Int × TaskControlBlock :=
  let r := set_priority t prio
  if r.1 = 0 then (prio, r.2) else (-1, t)

/-- Helper: the derived strict comparison is the xor of the two tests. -/
theorem passLt_eq (a b : Nat) :
    passLt a b =
      Bool.xor (decide (a ≤ b)) (decide (absDiff a b > BIG_STRIDE / 2)) := by
  unfold passLt passCmp
  cases h : Bool.xor (decide (a ≤ b)) (decide (absDiff a b > BIG_STRIDE / 2)) <;>
    simp [h] <;> rfl

/-- C2: for any two pass values `a` and `b`, the derived `<` of the `Pass`
comparison holds exactly when `(a ≤ b) XOR (|a − b| > BIG_STRIDE / 2)`, and
`Pass` equality (including of a value with itself) is always `false`. -/
theorem passLt_xor_spec (a b : Nat) :
    (passLt a b = true ↔ Xor' (a ≤ b) (absDiff a b > BIG_STRIDE / 2)) ∧
    passEq a b = false ∧ passEq a a = false := by
  refine ⟨?_, rfl, rfl⟩
  rw [passLt_eq]
  by_cases h1 : a ≤ b <;> by_cases h2 : absDiff a b > BIG_STRIDE / 2 <;>
    simp [h1, h2, Xor']

/-- Helper: within half a `BIG_STRIDE` of each other, the `Pass` comparison
degenerates to `a ≤ b` (so equal values still compare as Less). -/
theorem passLt_of_close (a b : Nat) (h : absDiff a b ≤ BIG_STRIDE / 2) :
    passLt a b = decide (a ≤ b) := by
  rw [passLt_eq, decide_eq_false (by omega : ¬ absDiff a b > BIG_STRIDE / 2),
    Bool.xor_false]

/-- Helper: `getD` at an index below the length is a member of the list. -/
theorem getD_mem_of_lt {α : Type} [Inhabited α] (l : List α) (j : Nat)
    (h : j < l.length) : l.getD j default ∈ l := by
  rw [List.getD_eq_getElem l default h]
  exact List.getElem_mem h

/-- Invariant of the scan in `TaskManager::fetch` after the first `n`
iterations: the accumulator holds an index below `n` carrying its stride,
that stride is minimal among the first `n` strides, and any later index
among the first `n` has a strictly larger stride (ties go to later
indices). -/
def FoldInv (q : List TaskControlBlock) (n : Nat) (r : Nat × Nat) : Prop :=
  r.1 < n ∧ r.2 = (q.getD r.1 default).task_stride ∧
  (∀ j, j < n → r.2 ≤ (q.getD j default).task_stride) ∧
  (∀ j, r.1 < j → j < n → r.2 < (q.getD j default).task_stride)

/-- Helper: the scan of `TaskManager::fetch` computes the minimum stride and
the last index attaining it, provided all strides lie within
`BIG_STRIDE / 2` of each other. -/
theorem fetch_fold_spec (q : List TaskControlBlock)
    (hwin : ∀ a ∈ q, ∀ b ∈ q, absDiff a.task_stride b.task_stride ≤ BIG_STRIDE / 2) :
    ∀ n, 1 ≤ n → n ≤ q.length →
      FoldInv q n ((List.range n).foldl (fetchStep q) (0, (q.getD 0 default).task_stride)) := by
  intro n
  induction n with
  | zero => omega
  | succ n ih =>
    intro _ hle
    rw [List.range_succ, List.foldl_append, List.foldl_cons, List.foldl_nil]
    by_cases hn : n = 0
    · subst hn
      simp only [List.range_zero, List.foldl_nil]
      have hstep : fetchStep q (0, (q.getD 0 default).task_stride) 0 =
          (0, (q.getD 0 default).task_stride) := by
        unfold fetchStep
        cases passLt (q.getD 0 default).task_stride (q.getD 0 default).task_stride <;> simp
      rw [hstep]
      exact ⟨Nat.zero_lt_one, rfl,
        fun j hj => by interval_cases j; exact le_rfl,
        fun j h1 h2 => by omega⟩
    · have hr := ih (by omega) (by omega)
      set r := (List.range n).foldl (fetchStep q) (0, (q.getD 0 default).task_stride) with hrdef
      obtain ⟨h1, h2, h3, h4⟩ := hr
      have hnq : n < q.length := by omega
      have hmem_n : q.getD n default ∈ q := getD_mem_of_lt q n hnq
      have hmem_r : q.getD r.1 default ∈ q := getD_mem_of_lt q r.1 (by omega)
      have hclose : absDiff (q.getD n default).task_stride r.2 ≤ BIG_STRIDE / 2 := by
        rw [h2]; exact hwin _ hmem_n _ hmem_r
      unfold fetchStep
      rw [passLt_of_close _ _ hclose]
      by_cases hcmp : (q.getD n default).task_stride ≤ r.2
      · rw [if_pos (by simpa using hcmp)]
        refine ⟨by omega, rfl, ?_, ?_⟩
        · intro j hj
          rcases Nat.lt_or_ge j n with hj' | hj'
          · exact le_trans hcmp (h3 j hj')
          · have : j = n := by omega
            subst this; exact le_rfl
        · intro j hj1 hj2; omega
      · rw [if_neg (by simpa using hcmp)]
        refine ⟨by omega, h2, ?_, ?_⟩
        · intro j hj
          rcases Nat.lt_or_ge j n with hj' | hj'
          · exact h3 j hj'
          · have : j = n := by omega
            subst this; omega
        · intro j hj1 hj2
          rcases Nat.lt_or_ge j n with hj' | hj'
          · exact h4 j hj1 hj'
          · have : j = n := by omega
            subst this; omega

/-- C1 (counterexample): two ready tasks with equal pass values; `fetch`
returns the task at index 1 (pid 2), not the first-seen index 0 (pid 1),
because equal `Pass` values compare as `Less` and the scan replaces the
candidate. -/
theorem fetch_tie_cex :
    TaskManager.fetch [⟨1, 0, 2⟩, ⟨2, 0, 2⟩] = some (⟨2, 0, 2⟩, [⟨1, 0, 2⟩]) ∧
    (⟨2, 0, 2⟩ : TaskControlBlock).pid ≠ (⟨1, 0, 2⟩ : TaskControlBlock).pid := by
  constructor
  · decide
  · decide

/-- C1 (amended): on the empty ready queue `fetch` returns none; on a
non-empty queue whose pass values all lie within `BIG_STRIDE / 2` of one
another, `fetch` removes, via swap-remove, a task of minimal `task_stride`
— with ties among equal pass values broken in favour of the LAST-seen
(highest) index, since equal `Pass` values compare as `Less`. -/
theorem fetch_min_spec (q : List TaskControlBlock) :
    (q = [] → TaskManager.fetch q = none) ∧
    (q ≠ [] →
      (∀ a ∈ q, ∀ b ∈ q, absDiff a.task_stride b.task_stride ≤ BIG_STRIDE / 2) →
      ∃ i, i < q.length ∧
        TaskManager.fetch q = some (q.getD i default, swapRemove q i) ∧
        (∀ j, j < q.length →
          (q.getD i default).task_stride ≤ (q.getD j default).task_stride) ∧
        (∀ j, i < j → j < q.length →
          (q.getD i default).task_stride < (q.getD j default).task_stride)) := by
  constructor
  · intro h; subst h; rfl
  · intro hne hwin
    have hlen : 1 ≤ q.length := by
      cases q with
      | nil => exact absurd rfl hne
      | cons a l => simp
    have hinv := fetch_fold_spec q hwin q.length hlen le_rfl
    obtain ⟨h1, h2, h3, h4⟩ := hinv
    refine ⟨((List.range q.length).foldl (fetchStep q)
      (0, (q.getD 0 default).task_stride)).1, h1, ?_, ?_, ?_⟩
    · unfold TaskManager.fetch
      rw [if_neg (by simp [hne])]
    · intro j hj
      have := h3 j hj
      rwa [h2] at this
    · intro j hj1 hj2
      have := h4 j hj1 hj2
      rwa [h2] at this

/-- C1 (witness): the amended theorem applied to the empty queue and to a
concrete singleton queue. -/
theorem fetch_min_spec_witness :
    (TaskManager.fetch [] = none) ∧
    (∃ i, i < [(⟨1, 5, 2⟩ : TaskControlBlock)].length ∧
      TaskManager.fetch [⟨1, 5, 2⟩] =
        some ([(⟨1, 5, 2⟩ : TaskControlBlock)].getD i default,
          swapRemove [⟨1, 5, 2⟩] i) ∧
      (∀ j, j < [(⟨1, 5, 2⟩ : TaskControlBlock)].length →
        ([(⟨1, 5, 2⟩ : TaskControlBlock)].getD i default).task_stride ≤
          ([(⟨1, 5, 2⟩ : TaskControlBlock)].getD j default).task_stride) ∧
      (∀ j, i < j → j < [(⟨1, 5, 2⟩ : TaskControlBlock)].length →
        ([(⟨1, 5, 2⟩ : TaskControlBlock)].getD i default).task_stride <
          ([(⟨1, 5, 2⟩ : TaskControlBlock)].getD j default).task_stride)) :=
  ⟨(fetch_min_spec []).1 rfl,
   (fetch_min_spec [⟨1, 5, 2⟩]).2 (by decide) (by decide)⟩

/-- C3: whenever `fetch` yields task `t` (the chosen task) and remainder
`rest`, `fetch_task` returns `t` with its pass advanced by exactly
`max 1 (BIG_STRIDE / priority)` and leaves `rest` — hence every other
task's pass — untouched; the chosen task's pass strictly increases.  The
hypotheses are the spec's `priority ≥ 2` and absence of `u64` overflow. -/
theorem fetch_task_advances (q : List TaskControlBlock) (t : TaskControlBlock)
    (rest : List TaskControlBlock)
    (hf : TaskManager.fetch q = some (t, rest))
    (hprio : 2 ≤ t.task_priority)
    (hov : t.task_stride + max 1 (BIG_STRIDE / t.task_priority) < 2 ^ 64) :
    fetch_task q =
      some ({ t with
        task_stride := t.task_stride + max 1 (BIG_STRIDE / t.task_priority) }, rest) ∧
    t.task_stride < t.task_stride + max 1 (BIG_STRIDE / t.task_priority) := by
  have hstep : Pass.step_by_prio t.task_stride t.task_priority =
      t.task_stride + max 1 (BIG_STRIDE / t.task_priority) := by
    unfold Pass.step_by_prio
    rcases hq : BIG_STRIDE / t.task_priority with _ | k
    · rw [hq] at hov
      have h1 : max 1 0 = 1 := by simp
      rw [h1] at hov ⊢
      exact Nat.mod_eq_of_lt hov
    · rw [hq] at hov
      have h1 : max 1 (k + 1) = k + 1 := max_eq_right (by omega)
      rw [h1] at hov ⊢
      exact Nat.mod_eq_of_lt hov
  constructor
  · unfold fetch_task
    rw [hf]
    show some ({ t with
      task_stride := Pass.step_by_prio t.task_stride t.task_priority }, rest) = _
    rw [hstep]
  · have h1 : 1 ≤ max 1 (BIG_STRIDE / t.task_priority) := le_max_left _ _
    omega

/-- C3 (witness): a singleton ready queue with stride 0 and priority 2. -/
theorem fetch_task_advances_witness :
    fetch_task [⟨1, 0, 2⟩] =
      some ({ (⟨1, 0, 2⟩ : TaskControlBlock) with
        task_stride := (0 : Nat) + max 1 (BIG_STRIDE / 2) }, []) ∧
    (0 : Nat) < 0 + max 1 (BIG_STRIDE / 2) :=
  fetch_task_advances [⟨1, 0, 2⟩] ⟨1, 0, 2⟩ [] (by decide) (by decide) (by decide)

/-- C9: `sys_set_priority` returns `prio` and stores it as the task's
priority when `prio ≥ 2`; for `prio < 2` it returns `-1` and leaves the
task (in particular its priority) unchanged. -/
theorem sys_set_priority_spec (t : TaskControlBlock) (prio : Int) :
    (2 ≤ prio →
      sys_set_priority t prio = (prio, { t with task_priority := prio.toNat })) ∧
    (prio < 2 → sys_set_priority t prio = (-1, t)) := by
  constructor
  · intro h
    unfold sys_set_priority set_priority
    rw [if_neg (by omega : ¬ prio < 2)]
    norm_num
  · intro h
    unfold sys_set_priority set_priority
    rw [if_pos h]
    norm_num

/-- C9 (witness): `sys_set_priority(5)` returns 5 and stores it;
`sys_set_priority(1)` returns −1 and leaves the priority at 16. -/
theorem sys_set_priority_spec_witness :
    sys_set_priority ⟨3, 0, 16⟩ 5 =
      (5, { (⟨3, 0, 16⟩ : TaskControlBlock) with task_priority := (5 : Int).toNat }) ∧
    sys_set_priority ⟨3, 0, 16⟩ 1 = (-1, ⟨3, 0, 16⟩) :=
  ⟨(sys_set_priority_spec ⟨3, 0, 16⟩ 5).1 (by norm_num),
   (sys_set_priority_spec ⟨3, 0, 16⟩ 1).2 (by norm_num)⟩

/-- The fields of a child `TaskControlBlock` that `sys_waitpid` reads: the
pid, whether its status is Zombie, its exit code, and the `Arc` strong
reference count observed at removal time (kept as data, since reference
counting itself is outside the shallow embedding). -/
structure ChildTCB where
  pid : Nat
  is_zombie : Bool
  exit_code : Int
  strong_count : Nat
deriving DecidableEq

instance : Inhabited ChildTCB := ⟨⟨0, false, 0, 0⟩⟩

/-- Embedding of the cast `pid as usize` for `pid : isize`. -/
def usizeOfIsize (pid : Int) : Nat := (pid % 2 ^ 64).toNat

/-- The match condition of `sys_waitpid`:
`pid == -1 || pid as usize == p.getpid()`. -/
def pidMatchesB (pid : Int) (c : ChildTCB) : Bool :=
  (pid == -1) || (usizeOfIsize pid == c.pid)

/-- Embedding of `iter().enumerate().find(pred)`: index (counting from `i`)
and value of the first element satisfying `pred`. -/
def findFirstIdx (p : ChildTCB → Bool) : List ChildTCB → Nat → Option (Nat × ChildTCB)
  | [], _ => none
  | c :: cs, i => if p c then some (i, c) else findFirstIdx p cs (i + 1)

/-- Embedding of `sys_waitpid` (`syscall/process.rs`).  The result is
`none` when the kernel would panic (the `assert_eq!(Arc::strong_count, 1)`),
and otherwise `some (return value, children after the call, memory write)`
where the write is `some (exit_code_ptr, exit code)` if the syscall stored
an exit code through the user pointer. -/
def sys_waitpid (children : List ChildTCB) (pid : Int) (ptr : Nat) :
    Option (Int × List ChildTCB × Option (Nat × Int)) :=
  if !(children.any fun c => pidMatchesB pid c) then
    some (-1, children, none)
  else
    match findFirstIdx (fun c => c.is_zombie && pidMatchesB pid c) children 0 with
    | some (idx, child) =>
        if child.strong_count = 1 then
          some ((child.pid : Int), children.eraseIdx idx, some (ptr, child.exit_code))
        else none
    | none => some (-2, children, none)

/-- Helper: `findFirstIdx` fails when no element satisfies the test. -/
theorem findFirstIdx_eq_none (p : ChildTCB → Bool) :
    ∀ (l : List ChildTCB) (i : Nat), (∀ c ∈ l, p c = false) →
      findFirstIdx p l i = none := by
  intro l
  induction l with
  | nil => intro i _; rfl
  | cons c cs ih =>
    intro i h
    unfold findFirstIdx
    rw [h c (by simp)]
    simp only [Bool.false_eq_true, if_false]
    exact ih (i + 1) fun d hd => h d (by simp [hd])

/-- Helper: `findFirstIdx` returns the first index whose element satisfies
the test, together with that element. -/
theorem findFirstIdx_eq_some (p : ChildTCB → Bool) :
    ∀ (l : List ChildTCB) (i k : Nat), k < l.length →
      p (l.getD k default) = true →
      (∀ j, j < k → p (l.getD j default) = false) →
      findFirstIdx p l i = some (i + k, l.getD k default) := by
  intro l
  induction l with
  | nil => intro i k hk; simp at hk
  | cons c cs ih =>
    intro i k hk hpk hj
    unfold findFirstIdx
    cases hc : p c with
    | true =>
      have hk0 : k = 0 := by
        by_contra hne
        have := hj 0 (by omega)
        simp only [List.getD_cons_zero] at this
        rw [hc] at this
        exact absurd this (by simp)
      subst hk0
      simp
    | false =>
      have hk0 : k ≠ 0 := by
        intro h0
        subst h0
        simp only [List.getD_cons_zero] at hpk
        rw [hc] at hpk
        exact absurd hpk (by simp)
      obtain ⟨m, rfl⟩ : ∃ m, k = m + 1 := ⟨k - 1, by omega⟩
      simp only [Bool.false_eq_true, if_false]
      have := ih (i + 1) m (by rw [List.length_cons] at hk; omega)
        (by simpa using hpk)
        (fun j hjm => by
          have := hj (j + 1) (by omega)
          simpa using this)
      rw [this]
      have harith : i + 1 + m = i + (m + 1) := by omega
      rw [harith, List.getD_cons_succ]

/-- C7: `sys_waitpid` returns −1 when no child matches `pid` (−1 matching
any child); −2 when a child matches but no matching child is a zombie; and
when the first matching zombie child sits at index `idx` — with its strong
refcount 1 at removal, the `Arc` invariant asserted by the source — the
call removes exactly that child, writes its exit code through
`exit_code_ptr`, and returns the child's pid. -/
theorem sys_waitpid_spec (children : List ChildTCB) (pid : Int) (ptr : Nat) :
    ((∀ c ∈ children, pidMatchesB pid c = false) →
      sys_waitpid children pid ptr = some (-1, children, none)) ∧
    ((∃ c ∈ children, pidMatchesB pid c = true) →
     (∀ c ∈ children, pidMatchesB pid c = true → c.is_zombie = false) →
      sys_waitpid children pid ptr = some (-2, children, none)) ∧
    (∀ idx, idx < children.length →
      ((children.getD idx default).is_zombie &&
        pidMatchesB pid (children.getD idx default)) = true →
      (∀ j, j < idx →
        ((children.getD j default).is_zombie &&
          pidMatchesB pid (children.getD j default)) = false) →
      (children.getD idx default).strong_count = 1 →
      sys_waitpid children pid ptr =
        some (((children.getD idx default).pid : Int), children.eraseIdx idx,
          some (ptr, (children.getD idx default).exit_code))) := by
  refine ⟨?_, ?_, ?_⟩
  · intro h
    unfold sys_waitpid
    have hany : (children.any fun c => pidMatchesB pid c) = false := by
      simp only [List.any_eq_false]
      intro c hc
      simp [h c hc]
    rw [hany]
    rfl
  · intro ⟨c, hc, hmatch⟩ hnz
    unfold sys_waitpid
    have hany : (children.any fun c => pidMatchesB pid c) = true := by
      simp only [List.any_eq_true]
      exact ⟨c, hc, by simp [hmatch]⟩
    rw [hany]
    have hnone : findFirstIdx (fun c => c.is_zombie && pidMatchesB pid c) children 0 = none := by
      apply findFirstIdx_eq_none
      intro d hd
      cases hm : pidMatchesB pid d with
      | true => simp [hnz d hd hm]
      | false => simp [hm]
    rw [hnone]
    rfl
  · intro idx hidx hz hj hstrong
    unfold sys_waitpid
    have hany : (children.any fun c => pidMatchesB pid c) = true := by
      simp only [List.any_eq_true]
      refine ⟨children.getD idx default, getD_mem_of_lt children idx hidx, ?_⟩
      exact ((Bool.and_eq_true _ _).mp hz).2
    rw [hany]
    have hfind := findFirstIdx_eq_some (fun c => c.is_zombie && pidMatchesB pid c)
      children 0 idx hidx hz hj
    rw [Nat.zero_add] at hfind
    rw [hfind]
    simp only [hstrong, if_pos rfl]
    rfl

/-- C7 (witness): the three branches at concrete inputs — no matching child
gives −1; a matching but running child gives −2; a matching zombie child is
removed, its exit code 42 written through the pointer, and its pid 7
returned. -/
theorem sys_waitpid_spec_witness :
    sys_waitpid [⟨7, true, 42, 1⟩] 3 100 = some (-1, [⟨7, true, 42, 1⟩], none) ∧
    sys_waitpid [⟨7, false, 0, 1⟩] 7 100 = some (-2, [⟨7, false, 0, 1⟩], none) ∧
    sys_waitpid [⟨9, false, 0, 1⟩, ⟨7, true, 42, 1⟩] (-1) 100 =
      some (7, ([⟨9, false, 0, 1⟩, ⟨7, true, 42, 1⟩] :
        List ChildTCB).eraseIdx 1, some (100, 42)) :=
  ⟨(sys_waitpid_spec [⟨7, true, 42, 1⟩] 3 100).1 (by decide),
   (sys_waitpid_spec [⟨7, false, 0, 1⟩] 7 100).2.1 (by decide) (by decide),
   (sys_waitpid_spec [⟨9, false, 0, 1⟩, ⟨7, true, 42, 1⟩] (-1) 100).2.2 1
     (by decide) (by decide) (by decide) (by decide)⟩

/-- Page size of the SV39 paging contract. -/
def PAGE_SIZE : Nat := 4096

/-- Modelled from the spec: `VirtAddr::from(usize)` (address types are in
`address.rs`, not among the provided sources) keeps the low 39 bits of an
SV39 virtual address. -/
def VirtAddr.from_usize (v : Nat) : Nat := v % 2 ^ 39

/-- Modelled from the spec: `VirtAddr::aligned` is true iff the low 12 bits
(the page offset) are zero. -/
def VirtAddr.aligned (va : Nat) : Bool := va % PAGE_SIZE == 0

/-- Embedding of the `usize` constant `!0x7`: all bits except the low
three. -/
def USIZE_NOT_7 : Nat := 2 ^ 64 - 8

/-- Embedding of `sys_mmap` (`syscall/process.rs`), parametric in the
underlying `mmap` of the memory set (defined in `mm`, outside the four
provided sources): first validate `start` alignment and the `port` bits,
then short-circuit `len == 0`, and only then delegate. -/
def sys_mmap (mmapImpl : Nat → Nat → Nat → Int) (start len port : Nat) : Int :=
  if !(VirtAddr.aligned (VirtAddr.from_usize start)) ||
     (port &&& USIZE_NOT_7) != 0 || (port &&& 7) == 0 then -1
  else if len = 0 then 0
  else mmapImpl (VirtAddr.from_usize start) (VirtAddr.from_usize (start + len)) port

/-- Embedding of `sys_munmap` (`syscall/process.rs`), parametric in the
underlying `munmap` of the memory set: validate `start` alignment, then
short-circuit `len == 0`, then delegate. -/
def sys_munmap (munmapImpl : Nat → Nat → Int) (start len : Nat) : Int :=
  if !(VirtAddr.aligned (VirtAddr.from_usize start)) then -1
  else if len = 0 then 0
  else munmapImpl (VirtAddr.from_usize start) (VirtAddr.from_usize start + len)

/-- Helper: alignment of the masked virtual address is alignment of the raw
`usize` start address, since the page size divides `2 ^ 39`. -/
theorem aligned_from_usize (start : Nat) :
    VirtAddr.aligned (VirtAddr.from_usize start) = (start % PAGE_SIZE == 0) := by
  unfold VirtAddr.aligned VirtAddr.from_usize PAGE_SIZE
  congr 1
  omega

/-- Helper: `sys_mmap` rejects invalid arguments with −1 for every length
and every underlying `mmap`. -/
theorem sys_mmap_err (mmapImpl : Nat → Nat → Nat → Int) (start len port : Nat)
    (h : start % PAGE_SIZE ≠ 0 ∨ port &&& USIZE_NOT_7 ≠ 0 ∨ port &&& 7 = 0) :
    sys_mmap mmapImpl start len port = -1 := by
  unfold sys_mmap
  rw [aligned_from_usize]
  rcases h with h | h | h
  · rw [if_pos (by simp [h])]
  · rw [if_pos (by simp [h])]
  · rw [if_pos (by simp [h])]

/-- C8: `sys_mmap` returns −1 whenever `start` is not page-aligned, or
`port` has bits outside the low three, or the low three bits of `port` are
all zero — for every length and every underlying `mmap`; and with valid
arguments a zero-length request returns 0 without consulting the underlying
`mmap` at all (no effect on the address space). -/
theorem sys_mmap_validation (mmapImpl : Nat → Nat → Nat → Int)
    (start len port : Nat) :
    ((start % PAGE_SIZE ≠ 0 ∨ port &&& USIZE_NOT_7 ≠ 0 ∨ port &&& 7 = 0) →
      sys_mmap mmapImpl start len port = -1) ∧
    (start % PAGE_SIZE = 0 → port &&& USIZE_NOT_7 = 0 → port &&& 7 ≠ 0 →
      len = 0 → sys_mmap mmapImpl start len port = 0) := by
  constructor
  · exact sys_mmap_err mmapImpl start len port
  · intro h1 h2 h3 h4
    unfold sys_mmap
    rw [aligned_from_usize]
    rw [if_neg (by simp [h1, h2, h3])]
    rw [if_pos h4]

/-- C8 (witness): a misaligned start (1) and a bad port (0) each give −1;
an aligned start with port 7 and length 0 gives 0, for an underlying `mmap`
that would return 99 if it were ever consulted. -/
theorem sys_mmap_validation_witness :
    sys_mmap (fun _ _ _ => 99) 1 4096 7 = -1 ∧
    sys_mmap (fun _ _ _ => 99) 4096 4096 0 = -1 ∧
    sys_mmap (fun _ _ _ => 99) 4096 0 7 = 0 :=
  ⟨(sys_mmap_validation (fun _ _ _ => 99) 1 4096 7).1 (Or.inl (by decide)),
   (sys_mmap_validation (fun _ _ _ => 99) 4096 4096 0).1 (Or.inr (Or.inr (by decide))),
   (sys_mmap_validation (fun _ _ _ => 99) 4096 0 7).2 (by decide) (by decide)
     (by decide) rfl⟩

/-- C10: in both `sys_mmap` and `sys_munmap` the argument checks run before
the `len == 0` short-circuit: with `len = 0` but a misaligned `start`, both
return −1 (not 0), and with `len = 0` but a bad `port` (bits outside the
low three, or low three all zero) `sys_mmap` returns −1 (not 0), for every
underlying implementation. -/
theorem mmap_munmap_len0_checks (mmapImpl : Nat → Nat → Nat → Int)
    (munmapImpl : Nat → Nat → Int) (start port : Nat) :
    (start % PAGE_SIZE ≠ 0 →
      sys_mmap mmapImpl start 0 port = -1 ∧ sys_munmap munmapImpl start 0 = -1) ∧
    (port &&& USIZE_NOT_7 ≠ 0 ∨ port &&& 7 = 0 →
      sys_mmap mmapImpl start 0 port = -1) := by
  constructor
  · intro h
    constructor
    · exact sys_mmap_err mmapImpl start 0 port (Or.inl h)
    · unfold sys_munmap
      rw [aligned_from_usize]
      rw [if_pos (by simp [h])]
  · intro h
    exact sys_mmap_err mmapImpl start 0 port (Or.inr h)

/-- C10 (witness): `len = 0` with `start = 1` (misaligned) gives −1 from
both syscalls; `len = 0` with aligned start but `port = 8` gives −1 from
`sys_mmap`. -/
theorem mmap_munmap_len0_checks_witness :
    (sys_mmap (fun _ _ _ => 99) 1 0 7 = -1 ∧ sys_munmap (fun _ _ => 99) 1 0 = -1) ∧
    sys_mmap (fun _ _ _ => 99) 4096 0 8 = -1 :=
  ⟨(mmap_munmap_len0_checks (fun _ _ _ => 99) (fun _ _ => 99) 1 7).1 (by decide),
   (mmap_munmap_len0_checks (fun _ _ _ => 99) (fun _ _ => 99) 4096 8).2
     (Or.inl (by decide))⟩

/-- Modelled from the spec: `VirtPageNum::indexes` (`address.rs`, not among
the provided sources) splits a VPN into three 9-bit indices `[L2, L1, L0]`,
L2 being the most significant. -/
def vpnIndexes (vpn : Nat) : Nat × Nat × Nat :=
  (vpn / 2 ^ 18 % 512, vpn / 2 ^ 9 % 512, vpn % 512)

/-- Embedding of `PageTableEntry::new(ppn, flags)`:
`bits = ppn << 10 | flags.bits as usize` in `usize` arithmetic.  Since
`flags.bits : u8` is below `2 ^ 8` and the low 10 bits of `ppn << 10` are
zero, the bitwise or is addition. -/
def PTE_new (ppn flags : Nat) : Nat := (ppn * 2 ^ 10 + flags % 2 ^ 8) % 2 ^ 64

/-- Embedding of `PageTableEntry::ppn()`: `bits >> 10 & ((1 << 44) - 1)`. -/
def PTE_ppn (bits : Nat) : Nat := bits / 2 ^ 10 % 2 ^ 44

/-- Embedding of `PageTableEntry::flags()`: `bits as u8`. -/
def PTE_flags (bits : Nat) : Nat := bits % 2 ^ 8

/-- Embedding of `PageTableEntry::is_valid()`: `flags() & V ≠ empty` with
`V = 1 << 0`. -/
def PTE_is_valid (bits : Nat) : Bool := (PTE_flags bits &&& 1) != 0

/-- The page-table state: the root physical page number, physical memory as
a map `frame ppn → entry index → PTE bits`, the frame allocator's next
fresh frame, and the list of interior frames owned by the table. -/
structure PageTable where
  root_ppn : Nat
  mem : Nat → Nat → Nat
  next_frame : Nat
  frames : List Nat

/-- Write one page-table entry in physical memory. -/
def memSet (m : Nat → Nat → Nat) (p i v : Nat) : Nat → Nat → Nat :=
  fun q j => if q = p ∧ j = i then v else m q j

/-- Zero a whole frame (a fresh frame from `frame_alloc` is zeroed by
`FrameTracker::new`). -/
def memZeroFrame (m : Nat → Nat → Nat) (p : Nat) : Nat → Nat → Nat :=
  fun q j => if q = p then 0 else m q j

/-- Embedding of `PageTable::new()`: one freshly allocated zeroed root
frame (frame 0 of a fresh allocator), owned by the table. -/
def PageTable.new : PageTable :=
  { root_ppn := 0, mem := fun _ _ => 0, next_frame := 1, frames := [0] }

/-- One interior iteration of `find_pte_create`, at frame `p`, index `i`:
read the entry; if valid, descend into its ppn; if invalid, allocate a
fresh zeroed frame `a` (`frame_alloc().unwrap()` — the source assumes no
OOM), install `PTE(a, V)` and push `a` onto the owned frames. -/
def descendCreate (pt : PageTable) (p i : Nat) : PageTable × Nat :=
  if PTE_is_valid (pt.mem p i) then (pt, PTE_ppn (pt.mem p i))
  else
    ({ root_ppn := pt.root_ppn
       mem := memSet (memZeroFrame pt.mem pt.next_frame) p i (PTE_new pt.next_frame 1)
       next_frame := pt.next_frame + 1
       frames := pt.frames ++ [pt.next_frame] }, pt.next_frame)

/-- Embedding of `PageTable::find_pte_create`: walk L2 then L1 with
`descendCreate`; at level 2 (the leaf level, `i == 2` in the source loop)
return the location `(frame, index)` of the leaf PTE without examining it.
The source returns `Option` but the loop always reaches `i == 2`, so the
result is always `Some`; the embedding returns the location directly. -/
def find_pte_create (pt : PageTable) (vpn : Nat) : PageTable × Nat × Nat :=
  ((descendCreate (descendCreate pt pt.root_ppn (vpnIndexes vpn).1).1
      (descendCreate pt pt.root_ppn (vpnIndexes vpn).1).2 (vpnIndexes vpn).2.1).1,
   (descendCreate (descendCreate pt pt.root_ppn (vpnIndexes vpn).1).1
      (descendCreate pt pt.root_ppn (vpnIndexes vpn).1).2 (vpnIndexes vpn).2.1).2,
   (vpnIndexes vpn).2.2)

/-- Embedding of `PageTable::map`: find (creating interior levels) the leaf
location for `vpn`; the source then asserts the leaf is not already valid
(`none` models that panic) and writes `PTE(ppn, flags | V)`. -/
def PageTable.map (pt : PageTable) (vpn ppn flags : Nat) : Option PageTable :=
  if PTE_is_valid ((find_pte_create pt vpn).1.mem
      (find_pte_create pt vpn).2.1 (find_pte_create pt vpn).2.2) then none
  else some
    { (find_pte_create pt vpn).1 with
      mem := memSet (find_pte_create pt vpn).1.mem
        (find_pte_create pt vpn).2.1 (find_pte_create pt vpn).2.2
        (PTE_new ppn (flags ||| 1)) }

/-- Embedding of `PageTable::unmap`: find (creating interior levels) the
leaf location for `vpn`; the source asserts the leaf is valid (`none`
models that panic) and writes the empty PTE (bits 0). -/
def PageTable.unmap (pt : PageTable) (vpn : Nat) : Option PageTable :=
  if PTE_is_valid ((find_pte_create pt vpn).1.mem
      (find_pte_create pt vpn).2.1 (find_pte_create pt vpn).2.2) then some
    { (find_pte_create pt vpn).1 with
      mem := memSet (find_pte_create pt vpn).1.mem
        (find_pte_create pt vpn).2.1 (find_pte_create pt vpn).2.2 0 }
  else none

/-- Embedding of `PageTable::find_pte`: walk the two interior levels,
returning `none` if either interior entry is invalid; at level 2 the leaf
PTE is returned WITHOUT a validity check (exactly as the source loop, which
breaks at `i == 2` before testing `is_valid`). -/
def PageTable.find_pte (pt : PageTable) (vpn : Nat) : Option Nat :=
  if !PTE_is_valid (pt.mem pt.root_ppn (vpnIndexes vpn).1) then none
  else if !PTE_is_valid (pt.mem (PTE_ppn (pt.mem pt.root_ppn (vpnIndexes vpn).1))
      (vpnIndexes vpn).2.1) then none
  else some (pt.mem
    (PTE_ppn (pt.mem (PTE_ppn (pt.mem pt.root_ppn (vpnIndexes vpn).1))
      (vpnIndexes vpn).2.1))
    (vpnIndexes vpn).2.2)

/-- Embedding of `PageTable::translate`: `find_pte(vpn).copied()`. -/
def PageTable.translate (pt : PageTable) (vpn : Nat) : Option Nat :=
  pt.find_pte vpn

/-- Well-formedness of a page-table state, with a ghost level assignment:
the root is an already-allocated frame of level 0, and every valid entry of
an allocated interior frame (level < 2) points to an allocated frame one
level down.  Leaf-level frames (level 2) are unconstrained. -/
def PTInv (pt : PageTable) (lvl : Nat → Nat) : Prop :=
  pt.root_ppn < pt.next_frame ∧ lvl pt.root_ppn = 0 ∧
  ∀ p, p < pt.next_frame → lvl p < 2 → ∀ i, i < 512 →
    PTE_is_valid (pt.mem p i) = true →
      PTE_ppn (pt.mem p i) < pt.next_frame ∧
      lvl (PTE_ppn (pt.mem p i)) = lvl p + 1

/-- Helper: a PTE built from a sub-`2 ^ 44` ppn round-trips its ppn. -/
theorem PTE_new_ppn (p f : Nat) (hp : p < 2 ^ 44) :
    PTE_ppn (PTE_new p f) = p := by
  unfold PTE_ppn PTE_new
  omega

/-- Helper: a PTE built from sub-`2 ^ 8` flags round-trips its flags. -/
theorem PTE_new_flags (p f : Nat) (hf : f < 2 ^ 8) :
    PTE_flags (PTE_new p f) = f := by
  unfold PTE_flags PTE_new
  omega

/-- Helper: validity of a PTE is its parity. -/
theorem PTE_is_valid_eq (bits : Nat) :
    PTE_is_valid bits = decide (bits % 2 = 1) := by
  unfold PTE_is_valid PTE_flags
  rw [Nat.and_one_is_mod]
  rcases Nat.mod_two_eq_zero_or_one bits with h | h <;>
    · have h8 : bits % 2 ^ 8 % 2 = bits % 2 := Nat.mod_mod_of_dvd bits (by norm_num)
      rw [h8, h]
      simp

/-- Helper: a PTE built with odd flags is valid. -/
theorem PTE_is_valid_new (p f : Nat) (hodd : f % 2 = 1) :
    PTE_is_valid (PTE_new p f) = true := by
  rw [PTE_is_valid_eq]
  unfold PTE_new
  simp only [decide_eq_true_eq]
  omega

/-- Helper: the empty PTE (bits 0) is invalid. -/
theorem PTE_is_valid_zero : PTE_is_valid 0 = false := by
  rw [PTE_is_valid_eq]
  simp

/-- Helper: or-ing in the V bit makes the flags odd. -/
theorem lor_one_odd (f : Nat) : (f ||| 1) % 2 = 1 := by
  have h : (f ||| 1).testBit 0 = true := by
    rw [Nat.testBit_lor]
    simp
  simpa using h

/-- Helper: or-ing in the V bit keeps `u8` flags below `2 ^ 8`. -/
theorem lor_one_lt (f : Nat) (hf : f < 2 ^ 8) : f ||| 1 < 2 ^ 8 :=
  Nat.or_lt_two_pow hf (by norm_num)

/-- Ghost level assignment extended at a freshly allocated frame. -/
def lvlExtend (lvl : Nat → Nat) (a w : Nat) : Nat → Nat :=
  fun q => if q = a then w else lvl q

/-- Helper: a `descendCreate` step from a valid entry changes nothing. -/
theorem descendCreate_of_valid (pt : PageTable) (p i : Nat)
    (hv : PTE_is_valid (pt.mem p i) = true) :
    descendCreate pt p i = (pt, PTE_ppn (pt.mem p i)) := by
  unfold descendCreate
  rw [if_pos hv]

/-- Helper: specification of one interior step of `find_pte_create`.  From a
well-formed table and an allocated interior frame `p` of level < 2, the step
preserves well-formedness (for an extended level assignment), produces a
valid entry at `(p, i)` pointing to the returned frame — one level deeper —
and touches no other entry of the previously allocated frames. -/
theorem descendCreate_spec (pt : PageTable) (lvl : Nat → Nat) (p i : Nat)
    (pt1 : PageTable) (n : Nat)
    (hd : descendCreate pt p i = (pt1, n))
    (hinv : PTInv pt lvl) (hp : p < pt.next_frame) (hlvl : lvl p < 2)
    (hi : i < 512) (hnf : pt.next_frame < 2 ^ 44) :
    ∃ lvl1,
      pt1.root_ppn = pt.root_ppn ∧
      pt.next_frame ≤ pt1.next_frame ∧ pt1.next_frame ≤ pt.next_frame + 1 ∧
      PTInv pt1 lvl1 ∧
      (∀ q, q < pt.next_frame → lvl1 q = lvl q) ∧
      n < pt1.next_frame ∧ lvl1 n = lvl p + 1 ∧
      PTE_is_valid (pt1.mem p i) = true ∧ PTE_ppn (pt1.mem p i) = n ∧
      (∀ q j, q < pt.next_frame → ¬(q = p ∧ j = i) → pt1.mem q j = pt.mem q j) := by
  obtain ⟨hroot, hlvl0, hptr⟩ := hinv
  unfold descendCreate at hd
  by_cases hv : PTE_is_valid (pt.mem p i) = true
  · rw [if_pos hv] at hd
    simp only [Prod.mk.injEq] at hd
    obtain ⟨rfl, rfl⟩ := hd
    obtain ⟨hlt, hstep⟩ := hptr p hp hlvl i hi hv
    exact ⟨lvl, rfl, le_rfl, by omega, ⟨hroot, hlvl0, hptr⟩,
      fun q _ => rfl, hlt, hstep, hv, rfl, fun q j _ _ => rfl⟩
  · rw [if_neg hv] at hd
    simp only [Prod.mk.injEq] at hd
    obtain ⟨rfl, rfl⟩ := hd
    refine ⟨lvlExtend lvl pt.next_frame (lvl p + 1), rfl, by simp, by simp,
      ⟨?_, ?_, ?_⟩, ?_, ?_, ?_, ?_, ?_, ?_⟩
    · simp only []
      omega
    · simp only [lvlExtend]
      rw [if_neg (Nat.ne_of_lt hroot)]
      exact hlvl0
    · intro q hq hl1 j hj hval
      simp only [memSet, memZeroFrame, lvlExtend] at hval hl1 ⊢
      simp only [] at hq
      by_cases hqp : q = p ∧ j = i
      · obtain ⟨rfl, rfl⟩ := hqp
        rw [if_pos ⟨rfl, rfl⟩] at hval ⊢
        rw [PTE_new_ppn _ _ hnf]
        constructor
        · omega
        · rw [if_pos rfl, if_neg (Nat.ne_of_lt hp)]
      · rw [if_neg hqp] at hval ⊢
        by_cases hqa : q = pt.next_frame
        · rw [if_pos hqa] at hval
          rw [PTE_is_valid_zero] at hval
          exact absurd hval (by simp)
        · rw [if_neg hqa] at hval hl1 ⊢
          have hq' : q < pt.next_frame := by omega
          obtain ⟨hlt, hstep⟩ := hptr q hq' hl1 j hj hval
          constructor
          · omega
          · rw [if_neg (Nat.ne_of_lt hlt), if_neg hqa]
            exact hstep
    · intro q hq
      simp only [lvlExtend]
      rw [if_neg (Nat.ne_of_lt hq)]
    · simp only []
      omega
    · simp [lvlExtend]
    · simp only [memSet, and_self, if_true]
      exact PTE_is_valid_new _ _ (by norm_num)
    · simp only [memSet, and_self, if_true]
      exact PTE_new_ppn _ _ hnf
    · intro q j hq hne
      simp only [memSet, memZeroFrame]
      rw [if_neg hne, if_neg (Nat.ne_of_lt hq)]

/-- Helper: specification of `find_pte_create` on a well-formed table with
room for two fresh frames: the resulting table is well-formed, the two
interior entries along the path of `vpn` are valid and lead from the root
through a level-1 frame `n1` to the leaf frame, and the root, `n1` and the
leaf frame are pairwise distinct allocated frames (their ghost levels are
0, 1 and 2). -/
theorem find_pte_create_spec (pt : PageTable) (lvl : Nat → Nat) (v : Nat)
    (pt2 : PageTable) (p2 i0 : Nat)
    (hw : find_pte_create pt v = (pt2, p2, i0))
    (hinv : PTInv pt lvl) (hnf : pt.next_frame + 2 ≤ 2 ^ 44) :
    ∃ lvl2 n1,
      pt2.root_ppn = pt.root_ppn ∧
      pt.next_frame ≤ pt2.next_frame ∧ pt2.next_frame ≤ pt.next_frame + 2 ∧
      PTInv pt2 lvl2 ∧
      PTE_is_valid (pt2.mem pt.root_ppn (vpnIndexes v).1) = true ∧
      PTE_ppn (pt2.mem pt.root_ppn (vpnIndexes v).1) = n1 ∧
      PTE_is_valid (pt2.mem n1 (vpnIndexes v).2.1) = true ∧
      PTE_ppn (pt2.mem n1 (vpnIndexes v).2.1) = p2 ∧
      lvl2 pt.root_ppn = 0 ∧ lvl2 n1 = 1 ∧ lvl2 p2 = 2 ∧
      pt.root_ppn < pt2.next_frame ∧ n1 < pt2.next_frame ∧ p2 < pt2.next_frame ∧
      i0 = v % 512 := by
  have hroot := hinv.1
  have hlvl0 := hinv.2.1
  rcases h1 : descendCreate pt pt.root_ppn (vpnIndexes v).1 with ⟨pt1, n1⟩
  obtain ⟨lvl1, hroot1, hnfl1, hnfu1, hinv1, hagree1, hn1lt, hlvl1n1, hval1, hppn1, hconf1⟩ :=
    descendCreate_spec pt lvl pt.root_ppn (vpnIndexes v).1 pt1 n1 h1 hinv hroot
      (by omega) (Nat.mod_lt _ (by norm_num)) (by omega)
  rcases h2 : descendCreate pt1 n1 (vpnIndexes v).2.1 with ⟨pt2x, n2⟩
  obtain ⟨lvl2, hroot2, hnfl2, hnfu2, hinv2, hagree2, hn2lt, hlvl2n2, hval2, hppn2, hconf2⟩ :=
    descendCreate_spec pt1 lvl1 n1 (vpnIndexes v).2.1 pt2x n2 h2 hinv1 hn1lt
      (by rw [hlvl1n1, hlvl0]; omega) (Nat.mod_lt _ (by norm_num)) (by omega)
  unfold find_pte_create at hw
  rw [h1] at hw
  simp only [] at hw
  rw [h2] at hw
  simp only [Prod.mk.injEq] at hw
  obtain ⟨rfl, rfl, rfl⟩ := hw
  have hrootne : pt.root_ppn ≠ n1 := by
    intro h
    have ha := hagree1 pt.root_ppn hroot
    rw [← h] at hlvl1n1
    rw [hlvl1n1] at ha
    rw [hlvl0] at ha
    omega
  have hL2val : PTE_is_valid (pt2x.mem pt.root_ppn (vpnIndexes v).1) = true := by
    rw [hconf2 pt.root_ppn (vpnIndexes v).1 (by omega)
      (by intro hcon; exact hrootne hcon.1)]
    exact hval1
  have hL2ppn : PTE_ppn (pt2x.mem pt.root_ppn (vpnIndexes v).1) = n1 := by
    rw [hconf2 pt.root_ppn (vpnIndexes v).1 (by omega)
      (by intro hcon; exact hrootne hcon.1)]
    exact hppn1
  refine ⟨lvl2, n1, by rw [hroot2, hroot1], by omega, by omega, hinv2,
    hL2val, hL2ppn, hval2, hppn2, ?_, ?_, ?_, by omega, by omega, by omega, rfl⟩
  · rw [hagree2 pt.root_ppn (by omega), hagree1 pt.root_ppn hroot]
    exact hlvl0
  · rw [hagree2 n1 hn1lt]
    rw [hlvl1n1, hlvl0]
  · rw [hlvl2n2, hlvl1n1, hlvl0]

/-- Helper: `find_pte` along a path whose two interior entries are valid
returns the leaf entry, valid or not. -/
theorem find_pte_of_path (pt : PageTable) (v n1 n2 r e : Nat)
    (hr : pt.root_ppn = r)
    (h2 : PTE_is_valid (pt.mem r (vpnIndexes v).1) = true)
    (hp2 : PTE_ppn (pt.mem r (vpnIndexes v).1) = n1)
    (h1 : PTE_is_valid (pt.mem n1 (vpnIndexes v).2.1) = true)
    (hp1 : PTE_ppn (pt.mem n1 (vpnIndexes v).2.1) = n2)
    (he : pt.mem n2 (vpnIndexes v).2.2 = e) :
    pt.find_pte v = some e := by
  unfold PageTable.find_pte
  rw [hr, h2, hp2, h1, hp1, he]
  rfl

/-- Helper: a successful `map(v, p, f)` writes `PTE(p, f | V)` at the leaf
location of a two-interior-level path that is valid in the intermediate
table, the leaf frame being distinct from the root and the level-1 frame. -/
theorem map_walk (pt : PageTable) (lvl : Nat → Nat) (v p f : Nat) (pt' : PageTable)
    (hinv : PTInv pt lvl) (hnf : pt.next_frame + 2 ≤ 2 ^ 44)
    (hmap : pt.map v p f = some pt') :
    ∃ (pt2 : PageTable) (p2 n1 : Nat),
      pt' = { pt2 with mem := memSet pt2.mem p2 (v % 512) (PTE_new p (f ||| 1)) } ∧
      pt2.root_ppn = pt.root_ppn ∧
      PTE_is_valid (pt2.mem pt.root_ppn (vpnIndexes v).1) = true ∧
      PTE_ppn (pt2.mem pt.root_ppn (vpnIndexes v).1) = n1 ∧
      PTE_is_valid (pt2.mem n1 (vpnIndexes v).2.1) = true ∧
      PTE_ppn (pt2.mem n1 (vpnIndexes v).2.1) = p2 ∧
      pt.root_ppn ≠ p2 ∧ n1 ≠ p2 := by
  rcases hw : find_pte_create pt v with ⟨pt2, p2, i0⟩
  obtain ⟨lvl2, n1, hroot2, hnfl, hnfu, hinv2, hv2, hpp2, hv1, hpp1,
    hl0, hl1, hl2, hrlt, hn1lt, hp2lt, hi0⟩ :=
    find_pte_create_spec pt lvl v pt2 p2 i0 hw hinv hnf
  unfold PageTable.map at hmap
  simp only [hw] at hmap
  by_cases hvleaf : PTE_is_valid (pt2.mem p2 i0) = true
  · rw [if_pos hvleaf] at hmap
    exact absurd hmap (by simp)
  · rw [if_neg hvleaf] at hmap
    rw [Option.some.injEq] at hmap
    subst hmap
    have hrne : pt.root_ppn ≠ p2 := by
      intro h
      rw [h, hl2] at hl0
      omega
    have hn1ne : n1 ≠ p2 := by
      intro h
      rw [h, hl2] at hl1
      omega
    subst hi0
    exact ⟨pt2, p2, n1, rfl, hroot2, hv2, hpp2, hv1, hpp1, hrne, hn1ne⟩

/-- C5: on any well-formed page table with room for the walk's fresh
frames, a successful `map(v, p, f)` (44-bit `p`, `u8` flag set `f`) makes
`translate(v)` return exactly the PTE with ppn `p` and flags `f | V` — in
particular a valid entry. -/
theorem translate_after_map (pt : PageTable) (lvl : Nat → Nat) (v p f : Nat)
    (pt' : PageTable) (hinv : PTInv pt lvl) (hnf : pt.next_frame + 2 ≤ 2 ^ 44)
    (hp : p < 2 ^ 44) (hf : f < 2 ^ 8) (hmap : pt.map v p f = some pt') :
    pt'.translate v = some (PTE_new p (f ||| 1)) ∧
    PTE_ppn (PTE_new p (f ||| 1)) = p ∧
    PTE_flags (PTE_new p (f ||| 1)) = f ||| 1 ∧
    PTE_is_valid (PTE_new p (f ||| 1)) = true := by
  obtain ⟨pt2, p2, n1, hpt', hroot2, hv2, hpp2, hv1, hpp1, hrne, hn1ne⟩ :=
    map_walk pt lvl v p f pt' hinv hnf hmap
  subst hpt'
  have hne2 : ¬(pt.root_ppn = p2 ∧ (vpnIndexes v).1 = v % 512 ∧ True) := by
    intro hcon
    exact hrne hcon.1
  refine ⟨?_, PTE_new_ppn _ _ hp, PTE_new_flags _ _ (lor_one_lt f hf),
    PTE_is_valid_new _ _ (lor_one_odd f)⟩
  unfold PageTable.translate
  refine find_pte_of_path _ v n1 p2 pt.root_ppn (PTE_new p (f ||| 1)) hroot2 ?_ ?_ ?_ ?_ ?_
  · show PTE_is_valid
      (memSet pt2.mem p2 (v % 512) (PTE_new p (f ||| 1)) pt.root_ppn (vpnIndexes v).1) = true
    simp only [memSet]
    rw [if_neg (fun hcon => hrne hcon.1)]
    exact hv2
  · show PTE_ppn
      (memSet pt2.mem p2 (v % 512) (PTE_new p (f ||| 1)) pt.root_ppn (vpnIndexes v).1) = n1
    simp only [memSet]
    rw [if_neg (fun hcon => hrne hcon.1)]
    exact hpp2
  · show PTE_is_valid
      (memSet pt2.mem p2 (v % 512) (PTE_new p (f ||| 1)) n1 (vpnIndexes v).2.1) = true
    simp only [memSet]
    rw [if_neg (fun hcon => hn1ne hcon.1)]
    exact hv1
  · show PTE_ppn
      (memSet pt2.mem p2 (v % 512) (PTE_new p (f ||| 1)) n1 (vpnIndexes v).2.1) = p2
    simp only [memSet]
    rw [if_neg (fun hcon => hn1ne hcon.1)]
    exact hpp1
  · show memSet pt2.mem p2 (v % 512) (PTE_new p (f ||| 1)) p2 (vpnIndexes v).2.2 =
      PTE_new p (f ||| 1)
    rw [show (vpnIndexes v).2.2 = v % 512 from rfl]
    simp [memSet]

/-- C4 (amended): after a successful `map(v, p, f)` followed by
`unmap(v)` on a well-formed table, `translate(v)` does NOT return none: the
interior frames created by `map` stay valid, and `find_pte` returns the
leaf PTE without checking its validity, so `translate(v)` returns the empty
PTE (bits 0), which is not valid. -/
theorem translate_after_map_unmap (pt : PageTable) (lvl : Nat → Nat) (v p f : Nat)
    (pt1 pt2 : PageTable)
    (hinv : PTInv pt lvl) (hnf : pt.next_frame + 2 ≤ 2 ^ 44)
    (hmap : pt.map v p f = some pt1) (hunmap : pt1.unmap v = some pt2) :
    pt2.translate v = some 0 ∧ PTE_is_valid 0 = false ∧ pt2.translate v ≠ none := by
  obtain ⟨ptm, p2, n1, hpt1, hrootm, hv2, hpp2, hv1, hpp1, hrne, hn1ne⟩ :=
    map_walk pt lvl v p f pt1 hinv hnf hmap
  subst hpt1
  have hcr : ¬(pt.root_ppn = p2 ∧ (vpnIndexes v).1 = v % 512) := fun hcon => hrne hcon.1
  have hcn : ¬(n1 = p2 ∧ (vpnIndexes v).2.1 = v % 512) := fun hcon => hn1ne hcon.1
  have h2a : PTE_is_valid (memSet ptm.mem p2 (v % 512) (PTE_new p (f ||| 1))
      pt.root_ppn (vpnIndexes v).1) = true := by
    simp only [memSet]
    rw [if_neg hcr]
    exact hv2
  have h2b : PTE_ppn (memSet ptm.mem p2 (v % 512) (PTE_new p (f ||| 1))
      pt.root_ppn (vpnIndexes v).1) = n1 := by
    simp only [memSet]
    rw [if_neg hcr]
    exact hpp2
  have h1a : PTE_is_valid (memSet ptm.mem p2 (v % 512) (PTE_new p (f ||| 1))
      n1 (vpnIndexes v).2.1) = true := by
    simp only [memSet]
    rw [if_neg hcn]
    exact hv1
  have h1b : PTE_ppn (memSet ptm.mem p2 (v % 512) (PTE_new p (f ||| 1))
      n1 (vpnIndexes v).2.1) = p2 := by
    simp only [memSet]
    rw [if_neg hcn]
    exact hpp1
  have hleaf : memSet ptm.mem p2 (v % 512) (PTE_new p (f ||| 1)) p2 (v % 512) =
      PTE_new p (f ||| 1) := by
    simp [memSet]
  set pt1 : PageTable :=
    { ptm with mem := memSet ptm.mem p2 (v % 512) (PTE_new p (f ||| 1)) } with hpt1def
  have hd1 : descendCreate pt1 pt1.root_ppn (vpnIndexes v).1 = (pt1, n1) := by
    have hvx : PTE_is_valid (pt1.mem pt1.root_ppn (vpnIndexes v).1) = true := by
      show PTE_is_valid (memSet ptm.mem p2 (v % 512) (PTE_new p (f ||| 1))
        ptm.root_ppn (vpnIndexes v).1) = true
      rw [hrootm]
      exact h2a
    rw [descendCreate_of_valid pt1 pt1.root_ppn (vpnIndexes v).1 hvx]
    have hpx : PTE_ppn (pt1.mem pt1.root_ppn (vpnIndexes v).1) = n1 := by
      show PTE_ppn (memSet ptm.mem p2 (v % 512) (PTE_new p (f ||| 1))
        ptm.root_ppn (vpnIndexes v).1) = n1
      rw [hrootm]
      exact h2b
    rw [hpx]
  have hd2 : descendCreate pt1 n1 (vpnIndexes v).2.1 = (pt1, p2) := by
    rw [descendCreate_of_valid pt1 n1 (vpnIndexes v).2.1 h1a]
    rw [show PTE_ppn (pt1.mem n1 (vpnIndexes v).2.1) = p2 from h1b]
  have hw1 : find_pte_create pt1 v = (pt1, p2, v % 512) := by
    unfold find_pte_create
    simp only [hd1, hd2]
    rfl
  unfold PageTable.unmap at hunmap
  simp only [hw1] at hunmap
  have hcond : PTE_is_valid (pt1.mem p2 (v % 512)) = true := by
    show PTE_is_valid (memSet ptm.mem p2 (v % 512) (PTE_new p (f ||| 1)) p2 (v % 512)) = true
    rw [hleaf]
    exact PTE_is_valid_new _ _ (lor_one_odd f)
  rw [if_pos hcond] at hunmap
  rw [Option.some.injEq] at hunmap
  subst hunmap
  have htr : PageTable.translate { pt1 with mem := memSet pt1.mem p2 (v % 512) 0 } v =
      some 0 := by
    unfold PageTable.translate
    refine find_pte_of_path _ v n1 p2 pt.root_ppn 0 hrootm ?_ ?_ ?_ ?_ ?_
    · show PTE_is_valid (memSet pt1.mem p2 (v % 512) 0 pt.root_ppn (vpnIndexes v).1) = true
      simp only [memSet]
      rw [if_neg hcr]
      exact h2a
    · show PTE_ppn (memSet pt1.mem p2 (v % 512) 0 pt.root_ppn (vpnIndexes v).1) = n1
      simp only [memSet]
      rw [if_neg hcr]
      exact h2b
    · show PTE_is_valid (memSet pt1.mem p2 (v % 512) 0 n1 (vpnIndexes v).2.1) = true
      simp only [memSet]
      rw [if_neg hcn]
      exact h1a
    · show PTE_ppn (memSet pt1.mem p2 (v % 512) 0 n1 (vpnIndexes v).2.1) = p2
      simp only [memSet]
      rw [if_neg hcn]
      exact h1b
    · show memSet pt1.mem p2 (v % 512) 0 p2 (vpnIndexes v).2.2 = 0
      rw [show (vpnIndexes v).2.2 = v % 512 from rfl]
      simp [memSet]
  exact ⟨htr, PTE_is_valid_zero, by rw [htr]; simp⟩

/-- C4 (counterexample): on a fresh page table, mapping VPN `0x12345` and
unmapping it again leaves `translate(0x12345)` returning `some` (the empty
PTE with bits 0), not none, refuting the claim that the table returns to a
state in which translation is none. -/
theorem map_unmap_translate_cex :
    ((PageTable.new.map 0x12345 0xABCDE 6).bind fun pt1 =>
      (pt1.unmap 0x12345).map fun pt2 => pt2.translate 0x12345) = some (some 0) ∧
    some (0 : Nat) ≠ (none : Option Nat) := by
  constructor
  · rfl
  · simp

/-- Ghost level assignment for a fresh page table: the root frame 0 at
level 0, everything else treated as leaf level. -/
def lvlNew : Nat → Nat := fun q => if q = 0 then 0 else 2

/-- Helper: a fresh page table is well-formed. -/
theorem PTInv_new : PTInv PageTable.new lvlNew := by
  refine ⟨by norm_num [PageTable.new], by simp [lvlNew, PageTable.new], ?_⟩
  intro q hq hl i hi hval
  exfalso
  have hz : PageTable.new.mem q i = 0 := rfl
  rw [hz, PTE_is_valid_zero] at hval
  exact absurd hval (by simp)

/-- The table after mapping VPN `0x12345 → 0xABCDE` with flags `R|W` on a
fresh page table. -/
def demoPt1 : PageTable := (PageTable.new.map 0x12345 0xABCDE 6).getD PageTable.new

/-- The table after additionally unmapping VPN `0x12345`. -/
def demoPt2 : PageTable := (demoPt1.unmap 0x12345).getD PageTable.new

/-- C5 (witness): the concrete map of scenario 1 of the spec. -/
theorem translate_after_map_witness :
    demoPt1.translate 0x12345 = some (PTE_new 0xABCDE (6 ||| 1)) ∧
    PTE_ppn (PTE_new 0xABCDE (6 ||| 1)) = 0xABCDE ∧
    PTE_flags (PTE_new 0xABCDE (6 ||| 1)) = 6 ||| 1 ∧
    PTE_is_valid (PTE_new 0xABCDE (6 ||| 1)) = true :=
  translate_after_map PageTable.new lvlNew 0x12345 0xABCDE 6 demoPt1 PTInv_new
    (by norm_num [PageTable.new]) (by norm_num) (by norm_num) rfl

/-- C4 (witness): the amended theorem at the concrete map/unmap pair. -/
theorem translate_after_map_unmap_witness :
    demoPt2.translate 0x12345 = some 0 ∧ PTE_is_valid 0 = false ∧
    demoPt2.translate 0x12345 ≠ none :=
  translate_after_map_unmap PageTable.new lvlNew 0x12345 0xABCDE 6 demoPt1 demoPt2
    PTInv_new (by norm_num [PageTable.new]) rfl rfl

/-- Embedding of the loop of `translated_byte_buffer` (`mm/page_table.rs`):
from the current address `start` up to `endv`, translate the page of
`start` (the source `unwrap`s, so a failed translation makes the whole call
`none`), step the vpn, cut at `end_va = min((vpn+1) * PAGE_SIZE, endv)`,
emit the slice `(ppn of the PTE, start offset, end offset)` of that page's
byte array — up to `PAGE_SIZE` when `end_va` sits on a page boundary — and
continue from `end_va`. -/
def tbbGo (pt : PageTable) (start endv : Nat) : Option (List (Nat × Nat × Nat)) :=
  if h : start < endv then
    match pt.translate (start / PAGE_SIZE) with
    | none => none
    | some pte =>
      match tbbGo pt (min ((start / PAGE_SIZE + 1) * PAGE_SIZE) endv) endv with
      | none => none
      | some rest =>
          some ((if min ((start / PAGE_SIZE + 1) * PAGE_SIZE) endv % PAGE_SIZE = 0
            then (PTE_ppn pte, start % PAGE_SIZE, PAGE_SIZE)
            else (PTE_ppn pte, start % PAGE_SIZE,
              min ((start / PAGE_SIZE + 1) * PAGE_SIZE) endv % PAGE_SIZE)) :: rest)
  else some []
termination_by endv - start
decreasing_by
  simp_wf
  have h2 : start % PAGE_SIZE < PAGE_SIZE := Nat.mod_lt _ (by norm_num [PAGE_SIZE])
  simp only [PAGE_SIZE] at h2 ⊢
  omega

/-- Embedding of `translated_byte_buffer(token, ptr, len)`: run the loop on
`[ptr, ptr + len)` over the page table borrowed from the token. -/
def translated_byte_buffer (pt : PageTable) (ptr len : Nat) :
    Option (List (Nat × Nat × Nat)) :=
  tbbGo pt ptr (ptr + len)

/-- Helper: the loop of `translated_byte_buffer` succeeds whenever every
touched page translates, and produces slices that lie within single pages,
sum to the remaining length, start at the current page offset, meet exactly
at page boundaries, and come from the consecutive pages of the range, in
order. -/
theorem tbbGo_spec : ∀ (n : Nat) (pt : PageTable) (s e : Nat), e - s ≤ n →
    (∀ w, s / PAGE_SIZE ≤ w → w * PAGE_SIZE < e → (pt.translate w).isSome = true) →
    ∃ segs, tbbGo pt s e = some segs ∧
      ((segs.map fun sg => sg.2.2 - sg.2.1).sum = e - s) ∧
      (∀ sg ∈ segs, sg.2.1 < sg.2.2 ∧ sg.2.2 ≤ PAGE_SIZE) ∧
      (∀ hd tl, segs = hd :: tl → hd.2.1 = s % PAGE_SIZE) ∧
      (∀ k, k + 1 < segs.length → (segs.getD k default).2.2 = PAGE_SIZE ∧
        (segs.getD (k + 1) default).2.1 = 0) ∧
      (∀ k, k < segs.length → (segs.getD k default).1 =
        PTE_ppn ((pt.translate (s / PAGE_SIZE + k)).getD 0)) := by
  intro n
  induction n with
  | zero =>
    intro pt s e hn _
    refine ⟨[], ?_, by simp; omega, by simp, by simp, by simp, by simp⟩
    rw [tbbGo, dif_neg (by omega)]
  | succ n ih =>
    intro pt s e hn hm
    by_cases hse : s < e
    case neg =>
      refine ⟨[], ?_, by simp; omega, by simp, by simp, by simp, by simp⟩
      rw [tbbGo, dif_neg hse]
    case pos =>
      have hsome : (pt.translate (s / PAGE_SIZE)).isSome = true :=
        hm (s / PAGE_SIZE) le_rfl
          (by simp only [PAGE_SIZE]; omega)
      obtain ⟨pte, hpte⟩ := Option.isSome_iff_exists.mp hsome
      set c := min ((s / PAGE_SIZE + 1) * PAGE_SIZE) e with hc
      have hsc : s < c := by
        have h1 : s < (s / PAGE_SIZE + 1) * PAGE_SIZE := by
          simp only [PAGE_SIZE]
          omega
        rw [hc]
        omega
      have hce : c ≤ e := by
        rw [hc]
        omega
      have hcub : c ≤ (s / PAGE_SIZE + 1) * PAGE_SIZE := by
        rw [hc]
        omega
      have hm' : ∀ w, c / PAGE_SIZE ≤ w → w * PAGE_SIZE < e →
          (pt.translate w).isSome = true := fun w hw hwe =>
        hm w (le_trans (Nat.div_le_div_right (le_of_lt hsc)) hw) hwe
      obtain ⟨rest, hrest, hsum, hbound, hhead, hbdy, hppn⟩ :=
        ih pt c e (by omega) hm'
      by_cases hc0 : c % PAGE_SIZE = 0
      · -- the cut sits on a page boundary, so it is the next page boundary
        have hcb : c = (s / PAGE_SIZE + 1) * PAGE_SIZE := by
          rw [hc]
          rcases le_or_lt ((s / PAGE_SIZE + 1) * PAGE_SIZE) e with hle | hlt
          · exact min_eq_left hle
          · exfalso
            have hminr : c = e := by
              rw [hc]
              exact min_eq_right (le_of_lt hlt)
            rw [hminr] at hc0
            simp only [PAGE_SIZE] at hc0 hlt
            omega
        have hlen1 : PAGE_SIZE - s % PAGE_SIZE = c - s := by
          rw [hcb]
          simp only [PAGE_SIZE]
          omega
        have hcdiv : c / PAGE_SIZE = s / PAGE_SIZE + 1 := by
          rw [hcb]
          simp only [PAGE_SIZE]
          omega
        refine ⟨(PTE_ppn pte, s % PAGE_SIZE, PAGE_SIZE) :: rest, ?_, ?_, ?_, ?_, ?_, ?_⟩
        · rw [tbbGo, dif_pos hse, ← hc, hpte, hrest]
          simp [hc0]
        · simp only [List.map_cons, List.sum_cons, hsum]
          omega
        · intro sg hsg
          rcases List.mem_cons.mp hsg with rfl | hmem
          · constructor
            · simp only [PAGE_SIZE] at hlen1 ⊢
              omega
            · exact le_rfl
          · exact hbound sg hmem
        · intro hd tl heq
          cases heq
          rfl
        · intro k hk
          cases k with
          | zero =>
            cases rest with
            | nil => simp at hk
            | cons rhd rtl =>
              refine ⟨rfl, ?_⟩
              rw [List.getD_cons_succ, List.getD_cons_zero]
              rw [hhead rhd rtl rfl, hc0]
          | succ k =>
            rw [List.length_cons] at hk
            obtain ⟨hb1, hb2⟩ := hbdy k (by omega)
            rw [List.getD_cons_succ, List.getD_cons_succ]
            exact ⟨hb1, hb2⟩
        · intro k hk
          cases k with
          | zero =>
            rw [List.getD_cons_zero, Nat.add_zero, hpte]
            rfl
          | succ k =>
            rw [List.length_cons] at hk
            rw [List.getD_cons_succ, hppn k (by omega), hcdiv]
            rw [show s / PAGE_SIZE + 1 + k = s / PAGE_SIZE + (k + 1) from by omega]
      · -- the cut is the end of the range, inside the current page
        have hcnb : c < (s / PAGE_SIZE + 1) * PAGE_SIZE := by
          rcases Nat.lt_or_ge c ((s / PAGE_SIZE + 1) * PAGE_SIZE) with hlt | hge
          · exact hlt
          · exfalso
            apply hc0
            have : c = (s / PAGE_SIZE + 1) * PAGE_SIZE := by omega
            rw [this]
            simp only [PAGE_SIZE]
            omega
        have hlen2 : c % PAGE_SIZE - s % PAGE_SIZE = c - s := by
          simp only [PAGE_SIZE] at hcnb ⊢
          omega
        have hrestnil : rest = [] := by
          have hcee : c = e := by
            rw [hc]
            rcases le_or_lt ((s / PAGE_SIZE + 1) * PAGE_SIZE) e with hle | hlt
            · exfalso
              have : c = (s / PAGE_SIZE + 1) * PAGE_SIZE := by
                rw [hc]
                exact min_eq_left hle
              omega
            · exact min_eq_right (le_of_lt hlt)
          cases rest with
          | nil => rfl
          | cons rhd rtl =>
            exfalso
            have hpos := (hbound rhd (by simp)).1
            simp only [List.map_cons, List.sum_cons] at hsum
            omega
        subst hrestnil
        refine ⟨[(PTE_ppn pte, s % PAGE_SIZE, c % PAGE_SIZE)], ?_, ?_, ?_, ?_, ?_, ?_⟩
        · rw [tbbGo, dif_pos hse, ← hc, hpte, hrest]
          simp [hc0]
        · simp only [List.map_cons, List.map_nil, List.sum_cons, List.sum_nil] at hsum ⊢
          omega
        · intro sg hsg
          rcases List.mem_cons.mp hsg with rfl | hmem
          · constructor
            · show s % PAGE_SIZE < c % PAGE_SIZE
              simp only [PAGE_SIZE] at hlen2 ⊢
              omega
            · show c % PAGE_SIZE ≤ PAGE_SIZE
              have := Nat.mod_lt c (show 0 < PAGE_SIZE by norm_num [PAGE_SIZE])
              omega
          · simp at hmem
        · intro hd tl heq
          cases heq
          rfl
        · intro k hk
          simp at hk
        · intro k hk
          simp only [List.length_cons, List.length_nil] at hk
          have hk0 : k = 0 := by omega
          subst hk0
          rw [List.getD_cons_zero, Nat.add_zero, hpte]
          rfl

/-- C6: whenever every page touched by `[ptr, ptr + len)` is mapped enough
to translate (the interior walk succeeds), `translated_byte_buffer` returns
a list of slices such that: slice lengths sum to exactly `len`; each slice
is a non-empty range inside one page; the first slice starts at `ptr`'s
page offset; consecutive slices meet exactly at page boundaries (a slice
ends at `PAGE_SIZE` and the next begins at offset 0); and the `k`-th slice
is taken from the frame of the `k`-th consecutive page of the range — the
list is ordered and covers the buffer. -/
theorem translated_byte_buffer_covers (pt : PageTable) (ptr len : Nat)
    (hmapped : ∀ w, ptr / PAGE_SIZE ≤ w → w * PAGE_SIZE < ptr + len →
      (pt.translate w).isSome = true) :
    ∃ segs, translated_byte_buffer pt ptr len = some segs ∧
      ((segs.map fun sg => sg.2.2 - sg.2.1).sum = len) ∧
      (∀ sg ∈ segs, sg.2.1 < sg.2.2 ∧ sg.2.2 ≤ PAGE_SIZE) ∧
      (∀ hd tl, segs = hd :: tl → hd.2.1 = ptr % PAGE_SIZE) ∧
      (∀ k, k + 1 < segs.length → (segs.getD k default).2.2 = PAGE_SIZE ∧
        (segs.getD (k + 1) default).2.1 = 0) ∧
      (∀ k, k < segs.length → (segs.getD k default).1 =
        PTE_ppn ((pt.translate (ptr / PAGE_SIZE + k)).getD 0)) := by
  obtain ⟨segs, h1, h2, h3, h4, h5, h6⟩ :=
    tbbGo_spec (ptr + len) pt ptr (ptr + len) (by omega) hmapped
  exact ⟨segs, h1, by rw [h2]; omega, h3, h4, h5, h6⟩

/-- A page table whose every entry, at every level, is `PTE(5, V)`: every
VPN translates. -/
def ptAll : PageTable :=
  { root_ppn := 0, mem := fun _ _ => PTE_new 5 1, next_frame := 6, frames := [] }

/-- Helper: every VPN translates on `ptAll`. -/
theorem ptAll_translate (w : Nat) : ptAll.translate w = some (PTE_new 5 1) := by
  unfold PageTable.translate PageTable.find_pte ptAll
  norm_num [PTE_is_valid, PTE_flags, PTE_new]

/-- C6 (witness): a 5000-byte buffer starting at address 100 on a table
where every page translates. -/
theorem translated_byte_buffer_covers_witness :
    ∃ segs, translated_byte_buffer ptAll 100 5000 = some segs ∧
      ((segs.map fun sg => sg.2.2 - sg.2.1).sum = 5000) ∧
      (∀ sg ∈ segs, sg.2.1 < sg.2.2 ∧ sg.2.2 ≤ PAGE_SIZE) ∧
      (∀ hd tl, segs = hd :: tl → hd.2.1 = 100 % PAGE_SIZE) ∧
      (∀ k, k + 1 < segs.length → (segs.getD k default).2.2 = PAGE_SIZE ∧
        (segs.getD (k + 1) default).2.1 = 0) ∧
      (∀ k, k < segs.length → (segs.getD k default).1 =
        PTE_ppn ((ptAll.translate (100 / PAGE_SIZE + k)).getD 0)) :=
  translated_byte_buffer_covers ptAll 100 5000 (fun w _ _ => by rw [ptAll_translate w]; rfl)

end OS5
